import Mathlib

/-!
Shallow embedding of the geometric transform engine of the Augmentor
repository (src/Augmentor/Operations.py): the skew generator and its
projective coefficient solve, the rotation crop formula, the two shear
branches, and the distortion mesh generator, together with theorems
settling the specification claims.

Conventions of the embedding: Python floats are modelled as exact
rationals (or reals where trigonometric functions occur), Python ints as
integers or naturals, and every random draw of the source is passed in as
an explicit parameter, so each definition is a pure function of the image
size, the configured parameters and the drawn values.
-/

namespace Augmentor

/-! ### Skew generator: skew amount (Operations.py lines 304-319) -/

/-- Model of the skew amount computation of Skew.perform_operation
(Operations.py lines 313-319): max_skew_amount = max(w, h); when the
configured magnitude is falsy (zero) the amount is a random draw r from
1..max(w, h) (passed here as the parameter r), otherwise max_skew_amount is
divided by the magnitude (true division, from the __future__ import) and
that quotient is the skew amount. -/
def skew_amount_of (w h : ℕ) (magnitude : ℚ) (r : ℚ) : ℚ :=
  if magnitude = 0 then r else (max w h : ℚ) / magnitude

/-- C5: for every image of width w and height h (w ≥ 1) and every skew
magnitude m > 0, the skew distance equals max(w, h) / m exactly, and for the
fixed image size the skew distance strictly decreases as the magnitude
increases. -/
theorem skew_amount_inverse_magnitude (w h : ℕ) (m m2 r : ℚ)
    (hw : 1 ≤ w) (hm : 0 < m) (hm2 : m < m2) :
    skew_amount_of w h m r = (max w h : ℚ) / m ∧
    skew_amount_of w h m2 r < skew_amount_of w h m r := by
  have hmax : (0 : ℚ) < (max w h : ℚ) := by
    have : 1 ≤ max w h := le_trans hw (Nat.le_max_left w h)
    exact_mod_cast Nat.lt_of_lt_of_le Nat.zero_lt_one this
  have hm0 : m ≠ 0 := ne_of_gt hm
  have hm20 : m2 ≠ 0 := ne_of_gt (lt_trans hm hm2)
  constructor
  · simp [skew_amount_of, hm0]
  · simp only [skew_amount_of, hm0, hm20, if_neg, if_false]
    exact div_lt_div_of_pos_left hmax hm hm2

/-- Witness for C5 at the concrete input w = 2, h = 3, m = 2, m2 = 4. -/
theorem skew_amount_inverse_magnitude_witness :
    skew_amount_of 2 3 2 1 = (max 2 3 : ℚ) / 2 ∧
    skew_amount_of 2 3 4 1 < skew_amount_of 2 3 2 1 :=
  skew_amount_inverse_magnitude 2 3 2 4 1 (by norm_num) (by norm_num) (by norm_num)

/-! ### Shear operation: configured bounds and the angle draw
(Operations.py lines 699-704 and 725-731) -/

/-- Configuration stored by Shear.__init__ (lines 699-704): the configured
left and right shear bounds kept on the object. -/
structure ShearConfig where
  maxShearLeft : ℚ
  maxShearRight : ℚ

/-- Local bounds rebound inside Shear.perform_operation (lines 727-728),
shadowing the configured ones: max_shear_left = -20, max_shear_right = 20. -/
def shear_local_bounds : ℚ × ℚ := (-20, 20)

/-- Truncation toward zero, modelling the int() conversion of Python. -/
def rat_trunc (q : ℚ) : ℤ := if q < 0 then ⌈q⌉ else ⌊q⌋

/-- Model of the shear angle draw (lines 730-731): angle_to_shear =
int(random.uniform(max_shear_left - 1, max_shear_right + 1)) with the local
bounds of shear_local_bounds, then incremented by one unless it equals -1.
The parameter u is the uniform draw; the configured bounds stored on the
ShearConfig do not occur in this computation in the source, so the model
ignores them as well. -/
def ShearConfig.drawnAngle (_s : ShearConfig) (u : ℚ) : ℤ :=
  let a := rat_trunc u
  if a ≠ -1 then a + 1 else a

/-- C7 (code bug): with configured bounds max_shear_left = max_shear_right = 5
the uniform draw still ranges over the interval determined by the hard coded
local bounds, [-21, 21]; the draw u = 15 lies in that interval and yields the
angle 16, which is outside the configured range [-5, 5], so the signed shear
angle is not drawn from the configured bounds. Moreover the drawn angle is
independent of the configured bounds altogether. -/
theorem shear_angle_ignores_configured_bounds :
    (∀ s1 s2 : ShearConfig, ∀ u : ℚ, s1.drawnAngle u = s2.drawnAngle u) ∧
    shear_local_bounds = (-20, 20) ∧
    (shear_local_bounds.1 - 1 ≤ (15 : ℚ) ∧ (15 : ℚ) ≤ shear_local_bounds.2 + 1) ∧
    (ShearConfig.mk 5 5).drawnAngle 15 = 16 ∧
    ¬ ((ShearConfig.mk 5 5).drawnAngle 15 ≤ 5) := by
  refine ⟨fun s1 s2 u => rfl, rfl, by norm_num [shear_local_bounds], ?_, ?_⟩ <;>
    simp [ShearConfig.drawnAngle, rat_trunc]

/-! ### Exact rational arithmetic for the projective solve

The coefficient solve of Skew.perform_operation (lines 400-412) is float
linear algebra; it is modelled with exact rational values. The fractions
below carry an explicit integer numerator and denominator and are
normalised with a fuel driven Euclid gcd, so that every operation reduces
inside the kernel. -/

/-- Fuel driven Euclid gcd on naturals. -/
def fgcd : ℕ → ℕ → ℕ → ℕ
  | 0, _, b => b
  | f+1, a, b => if a = 0 then b else fgcd f (b % a) a

/-- The gcd; a fuel of a + 1 always suffices for Euclid. -/
def natGcd (a b : ℕ) : ℕ := fgcd (a + 1) a b

/-- Exact rational value given by an integer fraction. Values produced by
the arithmetic below are normalised: lowest terms, positive denominator. -/
structure Frac where
  num : ℤ
  den : ℤ
deriving DecidableEq, Repr

/-- Normalisation: cancel the gcd and give the fraction a positive
denominator. -/
def Frac.norm (x : Frac) : Frac :=
  if x.num = 0 then ⟨0, 1⟩ else
  let g : ℤ := natGcd x.num.natAbs x.den.natAbs
  let sgn : ℤ := if x.den < 0 then -1 else 1
  ⟨sgn * x.num / g, sgn * x.den / g⟩

def Frac.add (x y : Frac) : Frac := Frac.norm ⟨x.num * y.den + y.num * x.den, x.den * y.den⟩

def Frac.sub (x y : Frac) : Frac := Frac.norm ⟨x.num * y.den - y.num * x.den, x.den * y.den⟩

def Frac.mul (x y : Frac) : Frac := Frac.norm ⟨x.num * y.num, x.den * y.den⟩

def Frac.div (x y : Frac) : Frac := Frac.norm ⟨x.num * y.den, x.den * y.num⟩

def Frac.ofInt (n : ℤ) : Frac := ⟨n, 1⟩

/-- Conversion from the rational type used elsewhere in the embedding. -/
def Frac.ofRat (q : ℚ) : Frac := ⟨q.num, q.den⟩

def Frac.isZero (x : Frac) : Bool := x.num = 0

/-! ### Matrix algebra modelling the numpy calls of the solve -/

/-- Dot product of two rows. -/
def dotProd (r c : List Frac) : Frac :=
  (List.zipWith Frac.mul r c).foldr Frac.add (Frac.ofInt 0)

/-- Matrix product, modelling numpy matrix multiplication. -/
def matMul (A B : List (List Frac)) : List (List Frac) :=
  let Bt := B.transpose
  A.map (fun row => Bt.map (fun col => dotProd row col))

/-- Matrix times vector. -/
def matVec (A : List (List Frac)) (v : List Frac) : List Frac :=
  A.map (fun row => dotProd row v)

/-- One column step of Gauss-Jordan elimination with row pivoting: find a
row at or below k whose entry in column k is nonzero, swap it up, scale it
to a unit pivot and clear column k from every other row. Returns none when
no pivot exists, i.e. the matrix is singular. -/
def pivotStep (k : ℕ) (rows : List (List Frac)) : Option (List (List Frac)) :=
  match (List.range rows.length).find?
      (fun i => decide (k ≤ i) && !((rows.getD i []).getD k (Frac.ofInt 0)).isZero) with
  | none => none
  | some i =>
    let rk := rows.getD i []
    let rows1 := (rows.set i (rows.getD k [])).set k rk
    let p := rk.getD k (Frac.ofInt 0)
    let rk1 := rk.map (fun x => x.div p)
    let rows2 := rows1.set k rk1
    some ((List.range rows2.length).map (fun j =>
      if j = k then rk1
      else
        let rj := rows2.getD j []
        let f := rj.getD k (Frac.ofInt 0)
        List.zipWith (fun a b => a.sub (f.mul b)) rj rk1))

/-- Elimination over all columns, with explicit fuel (the matrix size). -/
def gaussLoop : ℕ → ℕ → List (List Frac) → Option (List (List Frac))
  | 0, _, rows => some rows
  | fuel+1, k, rows =>
    match pivotStep k rows with
    | none => none
    | some rows2 => gaussLoop fuel (k+1) rows2

/-- Model of np.linalg.inv (line 411): exact Gauss-Jordan inversion of a
square matrix. The none result models the LinAlgError numpy raises on a
singular matrix; on every invertible matrix, including arbitrarily
ill-conditioned ones, the inverse is returned. No conditioning check
exists in the source. -/
def matInv (M : List (List Frac)) : Option (List (List Frac)) :=
  let n := M.length
  let aug := (List.range n).map
    (fun i => (M.getD i []) ++ (List.range n).map (fun j => Frac.ofInt (if j = i then 1 else 0)))
  match gaussLoop n 0 aug with
  | none => none
  | some rows => some (rows.map (fun r => r.drop n))

/-! ### The skew generator (Operations.py lines 292-417) -/

/-- The original plane of Skew.perform_operation (lines 306-311): with
x1 = 0, x2 = h, y1 = 0, y2 = w, the list [(y1,x1), (y2,x1), (y2,x2),
(y1,x2)] of image corners. -/
def original_plane (w h : ℤ) : List (Frac × Frac) :=
  [(Frac.ofInt 0, Frac.ofInt 0), (Frac.ofInt w, Frac.ofInt 0),
   (Frac.ofInt w, Frac.ofInt h), (Frac.ofInt 0, Frac.ofInt h)]

/-- The 8 x 8 system matrix built in lines 402-406: two rows per pair
(p1, p2) of zip(new_plane, original_plane). -/
def skew_matrix_rows (new_plane orig : List (Frac × Frac)) : List (List Frac) :=
  (new_plane.zip orig).flatMap (fun pq =>
    [[pq.1.1, pq.1.2, Frac.ofInt 1, Frac.ofInt 0, Frac.ofInt 0, Frac.ofInt 0,
      (Frac.ofInt 0).sub (pq.2.1.mul pq.1.1), (Frac.ofInt 0).sub (pq.2.1.mul pq.1.2)],
     [Frac.ofInt 0, Frac.ofInt 0, Frac.ofInt 0, pq.1.1, pq.1.2, Frac.ofInt 1,
      (Frac.ofInt 0).sub (pq.2.2.mul pq.1.1), (Frac.ofInt 0).sub (pq.2.2.mul pq.1.2)]])

/-- The right hand side B of line 409: original_plane flattened to 8
values. -/
def plane_vector (orig : List (Frac × Frac)) : List Frac :=
  orig.flatMap (fun p => [p.1, p.2])

/-- The normal equations matrix A transposed times A of line 411. -/
def skew_normal_matrix (new_plane orig : List (Frac × Frac)) : List (List Frac) :=
  matMul (skew_matrix_rows new_plane orig).transpose (skew_matrix_rows new_plane orig)

/-- Model of the coefficient solve of lines 402-412: build A and B, invert
A transposed times A, and return inv(A^T A) * A^T * B. The none result is
the numpy LinAlgError raised when the normal matrix is exactly singular;
no other failure mode exists, and no conditioning check is performed. -/
def skewSolve (new_plane orig : List (Frac × Frac)) : Option (List Frac) :=
  let A := skew_matrix_rows new_plane orig
  match matInv (matMul A.transpose A) with
  | none => none
  | some Minv => some (matVec (matMul Minv A.transpose) (plane_vector orig))

/-- A near-degenerate destination quadrilateral: the four corners
(0,0), (200,0), (200,1), (0,1) all lie within one unit of the line y = 0
across a 200 unit span, i.e. they are near-collinear and the resulting
normal equations system is severely ill-conditioned (yet still
invertible in exact arithmetic). -/
def near_collinear_plane : List (Frac × Frac) :=
  [(Frac.ofInt 0, Frac.ofInt 0), (Frac.ofInt 200, Frac.ofInt 0),
   (Frac.ofInt 200, Frac.ofInt 1), (Frac.ofInt 0, Frac.ofInt 1)]

/-- C2 counterexample: on the near-collinear (ill-conditioned)
correspondence from the 200 x 200 image square to near_collinear_plane,
the solve of the source returns a coefficient vector derived from the
normal equations, and does not surface any error. -/
theorem skew_solve_near_degenerate_counterexample :
    (skewSolve near_collinear_plane (original_plane 200 200)).isSome = true := by
  decide

/-- C2 amended: the projective solve performs no conditioning check at
all. It returns a coefficient vector exactly when the Gauss-Jordan
inversion of the normal equations matrix succeeds, i.e. whenever that
matrix is invertible, however ill-conditioned; the only error it can
surface is the generic inversion failure (numpy LinAlgError) on an
exactly singular normal matrix, and no SingularTransform error exists in
the source. -/
theorem skew_solve_no_conditioning_check (new_plane orig : List (Frac × Frac)) :
    (skewSolve new_plane orig).isSome =
      (matInv (skew_normal_matrix new_plane orig)).isSome := by
  unfold skewSolve skew_normal_matrix
  cases h : matInv (matMul (skew_matrix_rows new_plane orig).transpose
      (skew_matrix_rows new_plane orig)) <;> simp [h]

/-! ### Skew plane selection and the unbound new_plane (lines 321-417) -/

/-- The tilt destination planes (lines 333-356), selected by the drawn
skew_direction; the source draws the direction from 0..3, and a direction
outside that range would leave new_plane unassigned, hence none. -/
def tilt_plane (direction : ℕ) (y1 y2 x1 x2 sk : Frac) : Option (List (Frac × Frac)) :=
  if direction = 0 then
    some [(y1, x1.sub sk), (y2, x1), (y2, x2), (y1, x2.add sk)]
  else if direction = 1 then
    some [(y1, x1), (y2, x1.sub sk), (y2, x2.add sk), (y1, x2)]
  else if direction = 2 then
    some [(y1.sub sk, x1), (y2.add sk, x1), (y2, x2), (y1, x2)]
  else if direction = 3 then
    some [(y1, x1), (y2, x1), (y2.add sk, x2), (y1.sub sk, x2)]
  else none

/-- The corner destination planes (lines 358-385), selected by the drawn
skew_direction 0..7. -/
def corner_plane (direction : ℕ) (y1 y2 x1 x2 sk : Frac) : Option (List (Frac × Frac)) :=
  if direction = 0 then some [(y1.sub sk, x1), (y2, x1), (y2, x2), (y1, x2)]
  else if direction = 1 then some [(y1, x1.sub sk), (y2, x1), (y2, x2), (y1, x2)]
  else if direction = 2 then some [(y1, x1), (y2.add sk, x1), (y2, x2), (y1, x2)]
  else if direction = 3 then some [(y1, x1), (y2, x1.sub sk), (y2, x2), (y1, x2)]
  else if direction = 4 then some [(y1, x1), (y2, x1), (y2.add sk, x2), (y1, x2)]
  else if direction = 5 then some [(y1, x1), (y2, x1), (y2, x2.add sk), (y1, x2)]
  else if direction = 6 then some [(y1, x1), (y2, x1), (y2, x2), (y1.sub sk, x2)]
  else if direction = 7 then some [(y1, x1), (y2, x1), (y2, x2), (y1, x2.add sk)]
  else none

/-- The ALL destination plane (lines 387-398): every corner is pushed
outward by independent draws from randint(1, skew_amount), supplied here
by the stream rs. -/
def all_plane (y1 y2 x1 x2 : Frac) (rs : ℕ → ℤ) : List (Frac × Frac) :=
  [(y1.sub (Frac.ofInt (rs 0)), x1.sub (Frac.ofInt (rs 1))),
   (y2.add (Frac.ofInt (rs 2)), x1.sub (Frac.ofInt (rs 3))),
   (y2.add (Frac.ofInt (rs 4)), x2.add (Frac.ofInt (rs 5))),
   (y1.sub (Frac.ofInt (rs 6)), x2.add (Frac.ofInt (rs 7)))]

/-- Model of the new_plane assignment of lines 324-398: three sequential
if statements guard the assignment, on the tilt family, on CORNER, and on
ALL; for any other skew_type the variable is never assigned, modelled by
none. -/
def new_plane_for (skew_type : String) (direction : ℕ) (y1 y2 x1 x2 sk : Frac)
    (rs : ℕ → ℤ) : Option (List (Frac × Frac)) :=
  let step1 : Option (List (Frac × Frac)) :=
    if skew_type = "TILT" ∨ skew_type = "TILT_LEFT_RIGHT" ∨ skew_type = "TILT_TOP_BOTTOM"
    then tilt_plane direction y1 y2 x1 x2 sk
    else none
  let step2 := if skew_type = "CORNER" then corner_plane direction y1 y2 x1 x2 sk else step1
  if skew_type = "ALL" then some (all_plane y1 y2 x1 x2 rs) else step2

/-- Possible outcomes of Skew.perform_operation: a transformed image
(carrying the solved coefficients), the numpy inversion error, or the
Python unbound-local failure when new_plane was never assigned. -/
inductive SkewOutcome where
  | image (coeffs : List Frac)
  | linAlgError
  | unboundLocalError
deriving DecidableEq

/-- Model of Skew.perform_operation (lines 292-417) for a w x h image:
compute the skew amount, assign new_plane according to skew_type and the
drawn direction, then solve for the perspective coefficients; reaching the
solve with new_plane unassigned is the unbound-local error. The random
draws are the parameters r (amount draw), direction and rs (ALL corner
draws). -/
def Skew_perform (skew_type : String) (magnitude : ℚ) (w h : ℕ) (r : ℚ)
    (direction : ℕ) (rs : ℕ → ℤ) : SkewOutcome :=
  let x1 : Frac := Frac.ofInt 0
  let x2 : Frac := Frac.ofInt h
  let y1 : Frac := Frac.ofInt 0
  let y2 : Frac := Frac.ofInt w
  let sk : Frac := Frac.ofRat (skew_amount_of w h magnitude r)
  match new_plane_for skew_type direction y1 y2 x1 x2 sk rs with
  | none => SkewOutcome.unboundLocalError
  | some np =>
    match skewSolve np (original_plane w h) with
    | none => SkewOutcome.linAlgError
    | some v => SkewOutcome.image v

/-- C10: for every skew_type string other than TILT, TILT_LEFT_RIGHT,
TILT_TOP_BOTTOM, CORNER or ALL, Skew.perform_operation reaches the
coefficient solve with new_plane never assigned and fails with the
unbound-local error, whatever the image size, magnitude and draws. -/
theorem skew_unknown_type_unbound_error (s : String)
    (hs : s ∉ ["TILT", "TILT_LEFT_RIGHT", "TILT_TOP_BOTTOM", "CORNER", "ALL"])
    (magnitude r : ℚ) (w h : ℕ) (direction : ℕ) (rs : ℕ → ℤ) :
    Skew_perform s magnitude w h r direction rs = SkewOutcome.unboundLocalError := by
  simp only [List.mem_cons, List.mem_singleton, not_or] at hs
  obtain ⟨h1, h2, h3, h4, h5⟩ := hs
  simp [Skew_perform, new_plane_for, h1, h2, h3, h4, h5]

/-- Witness for C10 at the concrete unlisted skew_type "RANDOM". -/
theorem skew_unknown_type_unbound_error_witness :
    Skew_perform "RANDOM" 1 10 10 1 0 (fun _ => 1) = SkewOutcome.unboundLocalError :=
  skew_unknown_type_unbound_error "RANDOM" (by decide) 1 1 10 10 0 (fun _ => 1)

/-! ### Rotation with crop (Operations.py lines 449-504 and 539-587)

Rotate.perform_operation and RotateRange.perform_operation compute the
same crop window from the rotation angle, the original size (x, y) and
the expanded post-rotation canvas size (X, Y). The float trigonometry is
modelled over the reals. -/

/-- The value sin_angle_a of lines 486-490: the sine of
radians(abs(rotation)). -/
noncomputable def rot_sin_a (rotation : ℝ) : ℝ := Real.sin (|rotation| * Real.pi / 180)

/-- The value sin_angle_b of lines 487-491: the sine of
radians(90 - abs(rotation)). -/
noncomputable def rot_sin_b (rotation : ℝ) : ℝ := Real.sin ((90 - |rotation|) * Real.pi / 180)

/-- The value E after lines 494-496 of the source, with the literal
operator precedence of line 496: E = E / 1 - (sin_angle_a ** 2 /
sin_angle_b ** 2), i.e. the first product divided by one, minus the
squared sine ratio. Lines 576-578 of RotateRange.perform_operation
compute the identical expression. -/
noncomputable def rot_E (rotation X Y : ℝ) : ℝ :=
  (rot_sin_a rotation / rot_sin_b rotation) *
      (Y - X * (rot_sin_a rotation / rot_sin_b rotation)) / 1 -
    rot_sin_a rotation ^ 2 / rot_sin_b rotation ^ 2

/-- The value B = X - E of line 497. -/
noncomputable def rot_B (rotation X Y : ℝ) : ℝ := X - rot_E rotation X Y

/-- The value A = (sin_angle_a / sin_angle_b) * B of line 498. -/
noncomputable def rot_A (rotation X Y : ℝ) : ℝ :=
  (rot_sin_a rotation / rot_sin_b rotation) * rot_B rotation X Y

/-- The real valued crop window (E, A, X - E, Y - A) of line 501 before
integer rounding. -/
noncomputable def rot_crop_window (rotation X Y : ℝ) : ℝ × ℝ × ℝ × ℝ :=
  (rot_E rotation X Y, rot_A rotation X Y,
   X - rot_E rotation X Y, Y - rot_A rotation X Y)

/-- Bankers rounding of Python round(): nearest integer, ties to the even
neighbour. -/
noncomputable def py_round (x : ℝ) : ℤ :=
  if Int.fract x = 1/2 then (if Even ⌊x⌋ then ⌊x⌋ else ⌊x⌋ + 1) else ⌊x + 1/2⌋

/-- The integer crop box handed to image.crop in line 501:
(round(E), round(A), round(X - E), round(Y - A)). -/
noncomputable def rot_crop_box (rotation X Y : ℝ) : ℤ × ℤ × ℤ × ℤ :=
  (py_round (rot_E rotation X Y), py_round (rot_A rotation X Y),
   py_round (X - rot_E rotation X Y), py_round (Y - rot_A rotation X Y))

/-- The E value the claim describes: the product divided by the full
factor (1 - sin_angle_a ^ 2 / sin_angle_b ^ 2). -/
noncomputable def rot_E_claimed (rotation X Y : ℝ) : ℝ :=
  (rot_sin_a rotation / rot_sin_b rotation) *
      (Y - X * (rot_sin_a rotation / rot_sin_b rotation)) /
    (1 - rot_sin_a rotation ^ 2 / rot_sin_b rotation ^ 2)

/-- The crop window the claim describes, built from rot_E_claimed with
B = X - E and A = (sin a / sin b) * B. -/
noncomputable def rot_crop_window_claimed (rotation X Y : ℝ) : ℝ × ℝ × ℝ × ℝ :=
  (rot_E_claimed rotation X Y,
   (rot_sin_a rotation / rot_sin_b rotation) * (X - rot_E_claimed rotation X Y),
   X - rot_E_claimed rotation X Y,
   Y - (rot_sin_a rotation / rot_sin_b rotation) * (X - rot_E_claimed rotation X Y))

/-- C1 counterexample: at the rotation angle 30 with the expanded canvas
224 x 187 (the canvas PIL produces for a 200 x 100 image rotated by 30
degrees), the crop window computed by the source differs from the window
the claim describes, because line 496 divides only by 1 and then
subtracts the squared sine ratio instead of dividing by the full
factor. -/
theorem rotate_crop_full_factor_counterexample :
    rot_crop_window 30 224 187 ≠ rot_crop_window_claimed 30 224 187 := by
  have habs : |(30:ℝ)| = 30 := abs_of_pos (by norm_num)
  have hsa : rot_sin_a 30 = 1 / 2 := by
    unfold rot_sin_a
    rw [habs]
    have harg : (30:ℝ) * Real.pi / 180 = Real.pi / 6 := by ring
    rw [harg, Real.sin_pi_div_six]
  have hsb : rot_sin_b 30 = Real.sqrt 3 / 2 := by
    unfold rot_sin_b
    rw [habs]
    have harg : ((90:ℝ) - 30) * Real.pi / 180 = Real.pi / 3 := by ring
    rw [harg, Real.sin_pi_div_three]
  have hs2 : Real.sqrt 3 ^ 2 = 3 := Real.sq_sqrt (by norm_num)
  have hs0 : 0 < Real.sqrt 3 := Real.sqrt_pos.mpr (by norm_num)
  intro h
  have hE : rot_E 30 224 187 = rot_E_claimed 30 224 187 :=
    congrArg Prod.fst h
  rw [show rot_E 30 224 187 = (rot_sin_a 30 / rot_sin_b 30) *
      ((187:ℝ) - 224 * (rot_sin_a 30 / rot_sin_b 30)) / 1 -
      rot_sin_a 30 ^ 2 / rot_sin_b 30 ^ 2 from rfl,
    show rot_E_claimed 30 224 187 = (rot_sin_a 30 / rot_sin_b 30) *
      ((187:ℝ) - 224 * (rot_sin_a 30 / rot_sin_b 30)) /
      (1 - rot_sin_a 30 ^ 2 / rot_sin_b 30 ^ 2) from rfl, hsa, hsb] at hE
  have hs0' : Real.sqrt 3 ≠ 0 := ne_of_gt hs0
  have hden : (1:ℝ) - (1/2) ^ 2 / (Real.sqrt 3 / 2) ^ 2 ≠ 0 := by
    rw [div_pow, div_pow, hs2]
    norm_num
  field_simp at hE
  nlinarith [hs2, hs0, hE]

/-- The E value with the literal precedence named explicitly: the product
minus the squared sine ratio. -/
noncomputable def rot_E_amended (rotation X Y : ℝ) : ℝ :=
  (rot_sin_a rotation / rot_sin_b rotation) *
      (Y - X * (rot_sin_a rotation / rot_sin_b rotation)) -
    rot_sin_a rotation ^ 2 / rot_sin_b rotation ^ 2

/-- The amended crop window: rot_E_amended, then B = X - E and
A = (sin a / sin b) * B as the claim describes. -/
noncomputable def rot_crop_window_amended (rotation X Y : ℝ) : ℝ × ℝ × ℝ × ℝ :=
  (rot_E_amended rotation X Y,
   (rot_sin_a rotation / rot_sin_b rotation) * (X - rot_E_amended rotation X Y),
   X - rot_E_amended rotation X Y,
   Y - (rot_sin_a rotation / rot_sin_b rotation) * (X - rot_E_amended rotation X Y))

/-- The amended integer crop box. -/
noncomputable def rot_crop_box_amended (rotation X Y : ℝ) : ℤ × ℤ × ℤ × ℤ :=
  (py_round (rot_E_amended rotation X Y),
   py_round ((rot_sin_a rotation / rot_sin_b rotation) * (X - rot_E_amended rotation X Y)),
   py_round (X - rot_E_amended rotation X Y),
   py_round (Y - (rot_sin_a rotation / rot_sin_b rotation) * (X - rot_E_amended rotation X Y)))

/-- C1 amended: for every rotation angle and canvas size, the crop
computation of the source equals the amended formula chain in which E is
the product E = (sin a / sin b) * (Y - X * sin a / sin b) divided by 1 and
then diminished by sin^2 a / sin^2 b (the literal precedence of line 496),
followed by B = X - E, A = (sin a / sin b) * B and the rounded crop
window (round E, round A, round(X - E), round(Y - A)). -/
theorem rotate_crop_literal_precedence (rotation X Y : ℝ) :
    rot_crop_window rotation X Y = rot_crop_window_amended rotation X Y ∧
    rot_crop_box rotation X Y = rot_crop_box_amended rotation X Y := by
  have hE : rot_E rotation X Y = rot_E_amended rotation X Y := by
    unfold rot_E rot_E_amended
    rw [div_one]
  have hA : rot_A rotation X Y =
      (rot_sin_a rotation / rot_sin_b rotation) * (X - rot_E_amended rotation X Y) := by
    unfold rot_A rot_B
    rw [hE]
  constructor
  · unfold rot_crop_window rot_crop_window_amended
    rw [hE, hA]
  · unfold rot_crop_box rot_crop_box_amended
    rw [hE, hA]

/-- Possible outcomes of Rotate.perform_operation (lines 469-504): the
exact right-angle path taken when the configured rotation is -1, a
cropped-and-resized image carrying its crop box, or the float division by
zero raised inside line 494. -/
inductive RotateOutcome where
  | exactNinety (k : ℕ)
  | cropped (box : ℤ × ℤ × ℤ × ℤ)
  | zeroDivisionError

/-- Model of Rotate.perform_operation: when the configured rotation is -1
the image is rotated by 90 * k for the drawn factor k; otherwise the crop
formula runs on the expanded canvas (X, Y), raising ZeroDivisionError when
sin_angle_b = 0 and otherwise cropping the computed box. -/
noncomputable def Rotate_perform (rotation : ℝ) (k : ℕ) (X Y : ℝ) : RotateOutcome :=
  if rotation = -1 then RotateOutcome.exactNinety k
  else if rot_sin_b rotation = 0 then RotateOutcome.zeroDivisionError
  else RotateOutcome.cropped (rot_crop_box rotation X Y)

/-- C6 counterexample: at rotation angle 120 (so 90 <= the absolute
angle) the operation neither signals an InvalidRotationAngle error nor
fails: sin_angle_b = sin(-30 degrees) is nonzero, the formula runs and a
cropped image is returned. -/
theorem rotate_large_angle_returns_image :
    Rotate_perform 120 1 224 187 = RotateOutcome.cropped (rot_crop_box 120 224 187) := by
  have h1 : (120:ℝ) ≠ -1 := by norm_num
  have h2 : rot_sin_b 120 ≠ 0 := by
    unfold rot_sin_b
    have habs : |(120:ℝ)| = 120 := abs_of_pos (by norm_num)
    rw [habs]
    have harg : ((90:ℝ) - 120) * Real.pi / 180 = -(Real.pi / 6) := by ring
    rw [harg, Real.sin_neg, Real.sin_pi_div_six]
    norm_num
  simp [Rotate_perform, h1, h2]

/-- C6 amended: the source contains no angle validation at all. At
abs(rotation) = 90 the crop formula hits a float division by zero
(sin_angle_b = sin 0 = 0) and the operation fails with ZeroDivisionError,
not with an InvalidRotationAngle error; for larger angles whose
sin_angle_b is nonzero, such as 120 degrees, an image is returned. -/
theorem rotate_ninety_division_by_zero (rotation : ℝ) (k : ℕ) (X Y : ℝ)
    (habs : |rotation| = 90) :
    Rotate_perform rotation k X Y = RotateOutcome.zeroDivisionError := by
  have h1 : rotation ≠ -1 := by
    intro he
    rw [he] at habs
    norm_num at habs
  have h2 : rot_sin_b rotation = 0 := by
    unfold rot_sin_b
    rw [habs]
    norm_num
  simp [Rotate_perform, h1, h2]

/-- Witness for the amended C6 at the concrete angle 90. -/
theorem rotate_ninety_division_by_zero_witness :
    Rotate_perform 90 1 224 187 = RotateOutcome.zeroDivisionError :=
  rotate_ninety_division_by_zero 90 1 224 187 (by norm_num)

/-! ### The two shear branches (Operations.py lines 706-810)

Shear.perform_operation computes, from the already evaluated slope phi =
tan(radians(angle_to_shear)), an affine matrix, an expanded canvas size,
a crop window and a final resize. The slope is passed as a rational
parameter; the integer angle decides the sign branch exactly as in the
source. -/

/-- The data produced by one shear branch: the 6 affine coefficients, the
expanded canvas size passed to image.transform, the crop box and the final
resize target. -/
structure ShearResult where
  matrix : ℚ × ℚ × ℚ × ℚ × ℚ × ℚ
  canvas : ℤ × ℤ
  cropBox : ℚ × ℚ × ℚ × ℚ
  resizeTo : ℕ × ℕ
deriving DecidableEq

/-- Bankers rounding of Python round() on a rational: nearest integer,
ties to the even neighbour. -/
def rat_round_half_even (q : ℚ) : ℤ :=
  if q - ⌊q⌋ = 1/2 then (if ⌊q⌋ % 2 = 0 then ⌊q⌋ else ⌊q⌋ + 1) else ⌊q + 1/2⌋

/-- The x branch (lines 756-789): shift_in_pixels = phi * height rounded
with ceil for a positive value and floor otherwise; for angle <= 0 the
shift is replaced by its absolute value, the matrix offset by 0 and phi by
-abs(phi); matrix (1, phi, -offset, 0, 1, 0); canvas
(round(width + shift), height); crop (abs(shift), 0, width, height);
resize (width, height). -/
def shearX (angle : ℤ) (phi : ℚ) (width height : ℕ) : ShearResult :=
  let shift0 : ℚ := phi * height
  let shift1 : ℤ := if 0 < shift0 then ⌈shift0⌉ else ⌊shift0⌋
  let adj : ℤ × ℤ × ℚ := if angle ≤ 0 then (|shift1|, 0, -|phi|) else (shift1, shift1, phi)
  { matrix := (1, adj.2.2, ((-adj.2.1 : ℤ) : ℚ), 0, 1, 0)
    canvas := ((width : ℤ) + adj.1, (height : ℤ))
    cropBox := (((|adj.1| : ℤ) : ℚ), 0, (width : ℚ), (height : ℚ))
    resizeTo := (width, height) }

/-- The y branch (lines 791-810): shift_in_pixels = phi * width is kept
exact, with no ceil or floor; the sign adjustment is as in the x branch;
matrix (1, 0, 0, phi, 1, -offset); canvas (width, round(height + shift));
crop (0, abs(shift), width, height); resize (width, height). -/
def shearY (angle : ℤ) (phi : ℚ) (width height : ℕ) : ShearResult :=
  let shift0 : ℚ := phi * width
  let adj : ℚ × ℚ × ℚ := if angle ≤ 0 then (|shift0|, 0, -|phi|) else (shift0, shift0, phi)
  { matrix := (1, 0, 0, adj.2.2, 1, -adj.2.1)
    canvas := ((width : ℤ), rat_round_half_even ((height : ℚ) + adj.1))
    cropBox := (0, |adj.1|, (width : ℚ), (height : ℚ))
    resizeTo := (width, height) }

/-- The y branch the claim describes: exactly the x branch rule with the
roles of width and height and of the two axes transposed, including the
ceil (positive) / floor (negative) rounding of the pixel shift. -/
def shearY_claimed (angle : ℤ) (phi : ℚ) (width height : ℕ) : ShearResult :=
  let shift0 : ℚ := phi * width
  let shift1 : ℤ := if 0 < shift0 then ⌈shift0⌉ else ⌊shift0⌋
  let adj : ℤ × ℤ × ℚ := if angle ≤ 0 then (|shift1|, 0, -|phi|) else (shift1, shift1, phi)
  { matrix := (1, 0, 0, adj.2.2, 1, ((-adj.2.1 : ℤ) : ℚ))
    canvas := ((width : ℤ), (height : ℤ) + adj.1)
    cropBox := (0, ((|adj.1| : ℤ) : ℚ), (width : ℚ), (height : ℚ))
    resizeTo := (width, height) }

/-- C8 counterexample: for the slope 1/10 on a 105 x 100 image with a
positive shear angle, the y branch of the source keeps the fractional
shift 10.5 and rounds the canvas height to 110 (bankers rounding of
110.5), while the transposed x branch rule would use ceil(10.5) = 11 and
canvas height 111; the two branches therefore do not agree. -/
theorem shear_y_branch_counterexample :
    shearY 6 (1/10) 105 100 ≠ shearY_claimed 6 (1/10) 105 100 := by
  intro h
  have hc := congrArg (fun rr => rr.canvas.2) h
  have h6 : ¬ ((6:ℤ) ≤ 0) := by norm_num
  have hpos : (0:ℚ) < 1/10 * 105 := by norm_num
  simp only [shearY, shearY_claimed, if_neg h6, if_pos hpos] at hc
  push_cast at hc
  have hfl : ⌊(100:ℚ) + 1/10 * 105⌋ = 110 := by
    rw [Int.floor_eq_iff]; norm_num
  have hrr : rat_round_half_even ((100:ℚ) + 1/10 * 105) = 110 := by
    rw [rat_round_half_even, hfl]
    norm_num
  have hcl : ⌈(1:ℚ)/10 * 105⌉ = 11 := by
    rw [Int.ceil_eq_iff]; norm_num
  rw [hrr, hcl] at hc
  norm_num at hc

/-- Evaluation of the bankers rounding on an integer value. -/
theorem rat_round_half_even_intCast (m : ℤ) : rat_round_half_even (m : ℚ) = m := by
  rw [rat_round_half_even, Int.floor_intCast]
  have h1 : (m:ℚ) - m = 0 := by ring
  rw [h1, if_neg (by norm_num), Int.floor_int_add]
  have h2 : ⌊(1:ℚ)/2⌋ = 0 := by
    rw [Int.floor_eq_iff]; norm_num
  rw [h2, add_zero]

/-- C8 amended: the y branch transposes the x branch logic except that it
omits the ceil / floor rounding of the pixel shift: the shift keeps its
exact fractional value, the expanded canvas height applies Python round to
height + shift, and the crop offset is the fractional abs(shift).
Consequently the two rules coincide exactly when the shift phi * width is
an integer, as proved here, and differ otherwise (see the
counterexample). -/
theorem shear_y_branch_integral_shift (angle : ℤ) (phi : ℚ) (width height : ℕ)
    (hint : ∃ n : ℤ, phi * width = n) :
    shearY angle phi width height = shearY_claimed angle phi width height := by
  obtain ⟨n, hn⟩ := hint
  have hceil : (if 0 < (n:ℚ) then ⌈(n:ℚ)⌉ else ⌊(n:ℚ)⌋) = n := by
    rw [Int.ceil_intCast, Int.floor_intCast, ite_self]
  have hri : ∀ m : ℤ, rat_round_half_even ((height:ℚ) + (m:ℚ)) = (height:ℤ) + m := by
    intro m
    rw [show ((height:ℚ) + (m:ℚ)) = (((height:ℤ) + m : ℤ) : ℚ) by push_cast; ring,
      rat_round_half_even_intCast]
  simp only [shearY, shearY_claimed, hn, hceil]
  by_cases ha : angle ≤ 0
  · have habs : |(n:ℚ)| = ((|n| : ℤ) : ℚ) := (Int.cast_abs).symm
    simp only [if_pos ha, habs, hri, abs_abs]
    push_cast [abs_abs]
    simp
  · simp only [if_neg ha, hri]
    push_cast
    simp

/-- Witness for the amended C8 at an integral shift: slope 1/2 on a
10 x 7 image, shift 5. -/
theorem shear_y_branch_integral_shift_witness :
    shearY 4 (1/2) 10 7 = shearY_claimed 4 (1/2) 10 7 :=
  shear_y_branch_integral_shift 4 (1/2) 10 7 ⟨5, by norm_num⟩

/-! ### The distortion mesh generator (Operations.py lines 840-929)

Distort.perform_operation partitions the w x h image into a grid of
horizontal_tiles x vertical_tiles cell boxes, builds one quadrilateral per
cell, and then, for every interior grid vertex, draws one displacement and
adds it to the matching corner of the four cells sharing that vertex. The
random draws are passed as an explicit list of displacement pairs, one per
loop iteration. -/

/-- The cell width of line 847: int(floor(w / float(horizontal_tiles))). -/
def width_of_square (w horizontal_tiles : ℕ) : ℕ := w / horizontal_tiles

/-- The cell height of line 848. -/
def height_of_square (h vertical_tiles : ℕ) : ℕ := h / vertical_tiles

/-- The width of the last column of cells (line 850). -/
def width_of_last_square (w horizontal_tiles : ℕ) : ℕ :=
  w - width_of_square w horizontal_tiles * (horizontal_tiles - 1)

/-- The height of the last row of cells (line 851). -/
def height_of_last_square (h vertical_tiles : ℕ) : ℕ :=
  h - height_of_square h vertical_tiles * (vertical_tiles - 1)

/-- An axis aligned cell bounding box [x1, x2) x [y1, y2). -/
structure GridBox where
  x1 : ℕ
  y1 : ℕ
  x2 : ℕ
  y2 : ℕ
deriving DecidableEq, Inhabited, Repr

/-- The bounding box appended for grid cell (row r, column c) by the four
branches of lines 855-876: the last row and the last column use the
left-over width and height. -/
def dim_box (w h ht vt r c : ℕ) : GridBox :=
  let ws := width_of_square w ht
  let hs := height_of_square h vt
  if r = vt - 1 ∧ c = ht - 1 then
    ⟨c * ws, r * hs, width_of_last_square w ht + c * ws, height_of_last_square h vt + hs * r⟩
  else if r = vt - 1 then
    ⟨c * ws, r * hs, ws + c * ws, height_of_last_square h vt + hs * r⟩
  else if c = ht - 1 then
    ⟨c * ws, r * hs, width_of_last_square w ht + c * ws, hs + hs * r⟩
  else
    ⟨c * ws, r * hs, ws + c * ws, hs + hs * r⟩

/-- The dimensions list of lines 853-876: the boxes of all cells, rows
outermost, so cell (r, c) sits at index r * ht + c. -/
def dimensions (w h ht vt : ℕ) : List GridBox :=
  (List.range vt).flatMap (fun r => (List.range ht).map (fun c => dim_box w h ht vt r c))

/-- A cell quadrilateral in the corner order of line 890:
p1 = (x1, y1), p2 = (x1, y2), p3 = (x2, y2), p4 = (x2, y1). -/
structure Quad where
  p1 : ℤ × ℤ
  p2 : ℤ × ℤ
  p3 : ℤ × ℤ
  p4 : ℤ × ℤ
deriving DecidableEq, Inhabited, Repr

/-- The initial polygon of a cell (lines 888-890). -/
def GridBox.toQuad (b : GridBox) : Quad :=
  ⟨((b.x1 : ℤ), (b.y1 : ℤ)), ((b.x1 : ℤ), (b.y2 : ℤ)),
   ((b.x2 : ℤ), (b.y2 : ℤ)), ((b.x2 : ℤ), (b.y1 : ℤ))⟩

/-- The last_column index list of lines 882-884. -/
def last_column (ht vt : ℕ) : List ℕ :=
  (List.range vt).map (fun i => (ht - 1) + ht * i)

/-- The last_row index range of line 886. -/
def last_row (ht vt : ℕ) : List ℕ := List.range' (ht * vt - ht) ht

/-- The polygon_indices list of lines 892-895: for every cell index i
below the final one that is neither in the last row nor the last column,
the quadruple (a, b, c, d) = (i, i + 1, i + ht, i + 1 + ht) of cells
sharing the interior vertex at the bottom right corner of cell i. -/
def polygon_indices (ht vt : ℕ) : List (ℕ × ℕ × ℕ × ℕ) :=
  ((List.range (vt * ht - 1)).filter
      (fun i => decide (i ∉ last_row ht vt) && decide (i ∉ last_column ht vt))).map
    (fun i => (i, i + 1, i + ht, i + 1 + ht))

/-- One iteration of the displacement loop of lines 897-923: the same
drawn pair d is added to corner p3 of cell a, corner p2 of cell b, corner
p4 of cell c and corner p1 of cell d. -/
def apply_vertex_disp (polys : List Quad) (idx : ℕ × ℕ × ℕ × ℕ) (d : ℤ × ℤ) : List Quad :=
  let polys1 := polys.set idx.1
    { polys.getD idx.1 default with p3 := (polys.getD idx.1 default).p3 + d }
  let polys2 := polys1.set idx.2.1
    { polys1.getD idx.2.1 default with p2 := (polys1.getD idx.2.1 default).p2 + d }
  let polys3 := polys2.set idx.2.2.1
    { polys2.getD idx.2.2.1 default with p4 := (polys2.getD idx.2.2.1 default).p4 + d }
  polys3.set idx.2.2.2
    { polys3.getD idx.2.2.2 default with p1 := (polys3.getD idx.2.2.2 default).p1 + d }

/-- The whole displacement loop, iterating over the quadruples paired
with their drawn displacements. -/
def displace_polygons (pairs : List ((ℕ × ℕ × ℕ × ℕ) × (ℤ × ℤ)))
    (polys : List Quad) : List Quad :=
  pairs.foldl (fun ps pd => apply_vertex_disp ps pd.1 pd.2) polys

/-- The final polygons of Distort.perform_operation for a w x h image and
a ht x vt grid, with the drawn displacements supplied in disps. -/
def distort_polygons (w h ht vt : ℕ) (disps : List (ℤ × ℤ)) : List Quad :=
  displace_polygons ((polygon_indices ht vt).zip disps)
    ((dimensions w h ht vt).map GridBox.toQuad)

/-- The generated mesh of lines 925-927: each cell box paired with its
displaced polygon. -/
def generated_mesh (w h ht vt : ℕ) (disps : List (ℤ × ℤ)) : List (GridBox × Quad) :=
  (dimensions w h ht vt).zip (distort_polygons w h ht vt disps)

/-! ### Helper lemmas for the displacement loop -/

theorem getD_set_fun (l : List Quad) (k j : ℕ) (f : Quad → Quad) (hk : k < l.length) :
    (l.set k (f (l.getD k default))).getD j default =
      if k = j then f (l.getD j default) else l.getD j default := by
  by_cases h : k = j
  · subst h
    simp [List.getD_eq_getElem?_getD, List.getElem?_set_self hk, List.getElem?_eq_getElem hk]
  · simp [List.getD_eq_getElem?_getD, List.getElem?_set_ne h, h]

theorem getD_set_p1 (l : List Quad) (k j : ℕ) (d : ℤ × ℤ) (hk : k < l.length) :
    (l.set k { l.getD k default with p1 := (l.getD k default).p1 + d }).getD j default =
      if k = j then { l.getD j default with p1 := (l.getD j default).p1 + d }
      else l.getD j default :=
  getD_set_fun l k j (fun q => { q with p1 := q.p1 + d }) hk

theorem getD_set_p2 (l : List Quad) (k j : ℕ) (d : ℤ × ℤ) (hk : k < l.length) :
    (l.set k { l.getD k default with p2 := (l.getD k default).p2 + d }).getD j default =
      if k = j then { l.getD j default with p2 := (l.getD j default).p2 + d }
      else l.getD j default :=
  getD_set_fun l k j (fun q => { q with p2 := q.p2 + d }) hk

theorem getD_set_p3 (l : List Quad) (k j : ℕ) (d : ℤ × ℤ) (hk : k < l.length) :
    (l.set k { l.getD k default with p3 := (l.getD k default).p3 + d }).getD j default =
      if k = j then { l.getD j default with p3 := (l.getD j default).p3 + d }
      else l.getD j default :=
  getD_set_fun l k j (fun q => { q with p3 := q.p3 + d }) hk

theorem getD_set_p4 (l : List Quad) (k j : ℕ) (d : ℤ × ℤ) (hk : k < l.length) :
    (l.set k { l.getD k default with p4 := (l.getD k default).p4 + d }).getD j default =
      if k = j then { l.getD j default with p4 := (l.getD j default).p4 + d }
      else l.getD j default :=
  getD_set_fun l k j (fun q => { q with p4 := q.p4 + d }) hk

theorem length_apply_vertex_disp (polys : List Quad) (idx : ℕ × ℕ × ℕ × ℕ) (d : ℤ × ℤ) :
    (apply_vertex_disp polys idx d).length = polys.length := by
  simp [apply_vertex_disp]

theorem apply_vertex_disp_getD (polys : List Quad) (idx : ℕ × ℕ × ℕ × ℕ) (d : ℤ × ℤ)
    (j : ℕ) (h1 : idx.1 < polys.length) (h2 : idx.2.1 < polys.length)
    (h3 : idx.2.2.1 < polys.length) (h4 : idx.2.2.2 < polys.length) :
    (apply_vertex_disp polys idx d).getD j default =
      { p1 := (polys.getD j default).p1 + (if idx.2.2.2 = j then d else 0)
        p2 := (polys.getD j default).p2 + (if idx.2.1 = j then d else 0)
        p3 := (polys.getD j default).p3 + (if idx.1 = j then d else 0)
        p4 := (polys.getD j default).p4 + (if idx.2.2.1 = j then d else 0) } := by
  simp only [apply_vertex_disp]
  rw [getD_set_p1 _ _ _ _ (by simpa using h4)]
  rw [getD_set_p4 _ _ _ _ (by simpa using h3)]
  rw [getD_set_p2 _ _ _ _ (by simpa using h2)]
  rw [getD_set_p3 _ _ _ _ h1]
  by_cases e1 : idx.1 = j <;> by_cases e2 : idx.2.1 = j <;>
    by_cases e3 : idx.2.2.1 = j <;> by_cases e4 : idx.2.2.2 = j <;>
    simp [e1, e2, e3, e4]

/-- Total contribution that the displacement loop adds to the corner of
cell j selected by sel. -/
def corner_sum (pairs : List ((ℕ × ℕ × ℕ × ℕ) × (ℤ × ℤ)))
    (sel : ℕ × ℕ × ℕ × ℕ → ℕ) (j : ℕ) : ℤ × ℤ :=
  (pairs.filter (fun pd => decide (sel pd.1 = j))).foldr (fun pd acc => pd.2 + acc) (0, 0)

theorem corner_sum_cons (pd : (ℕ × ℕ × ℕ × ℕ) × (ℤ × ℤ))
    (pairs : List ((ℕ × ℕ × ℕ × ℕ) × (ℤ × ℤ))) (sel : ℕ × ℕ × ℕ × ℕ → ℕ) (j : ℕ) :
    corner_sum (pd :: pairs) sel j =
      (if sel pd.1 = j then pd.2 else 0) + corner_sum pairs sel j := by
  by_cases h : sel pd.1 = j <;> simp [corner_sum, h]

theorem corner_sum_eq_zero (pairs : List ((ℕ × ℕ × ℕ × ℕ) × (ℤ × ℤ)))
    (sel : ℕ × ℕ × ℕ × ℕ → ℕ) (j : ℕ)
    (h : ∀ pd ∈ pairs, sel pd.1 ≠ j) :
    corner_sum pairs sel j = (0, 0) := by
  induction pairs with
  | nil => rfl
  | cons pd tl ih =>
    rw [corner_sum_cons, if_neg (h pd (by simp)), ih (fun x hx => h x (by simp [hx]))]
    rfl

theorem displace_polygons_getD (pairs : List ((ℕ × ℕ × ℕ × ℕ) × (ℤ × ℤ)))
    (polys : List Quad) (j : ℕ) (hj : j < polys.length)
    (hb : ∀ pd ∈ pairs, pd.1.1 < polys.length ∧ pd.1.2.1 < polys.length ∧
      pd.1.2.2.1 < polys.length ∧ pd.1.2.2.2 < polys.length) :
    (displace_polygons pairs polys).getD j default =
      { p1 := (polys.getD j default).p1 + corner_sum pairs (fun t => t.2.2.2) j
        p2 := (polys.getD j default).p2 + corner_sum pairs (fun t => t.2.1) j
        p3 := (polys.getD j default).p3 + corner_sum pairs (fun t => t.1) j
        p4 := (polys.getD j default).p4 + corner_sum pairs (fun t => t.2.2.1) j } := by
  induction pairs generalizing polys with
  | nil =>
    simp [displace_polygons, corner_sum]
  | cons pd tl ih =>
    obtain ⟨hb1, hb2, hb3, hb4⟩ := hb pd (by simp)
    have hlen : (apply_vertex_disp polys pd.1 pd.2).length = polys.length :=
      length_apply_vertex_disp polys pd.1 pd.2
    have hstep := apply_vertex_disp_getD polys pd.1 pd.2 j hb1 hb2 hb3 hb4
    have htl : ∀ x ∈ tl, x.1.1 < (apply_vertex_disp polys pd.1 pd.2).length ∧
        x.1.2.1 < (apply_vertex_disp polys pd.1 pd.2).length ∧
        x.1.2.2.1 < (apply_vertex_disp polys pd.1 pd.2).length ∧
        x.1.2.2.2 < (apply_vertex_disp polys pd.1 pd.2).length := by
      intro x hx
      rw [hlen]
      exact hb x (by simp [hx])
    rw [show displace_polygons (pd :: tl) polys =
      displace_polygons tl (apply_vertex_disp polys pd.1 pd.2) from rfl]
    rw [ih (apply_vertex_disp polys pd.1 pd.2) (by rw [hlen]; exact hj) htl]
    rw [hstep]
    simp [corner_sum_cons, add_assoc]

/-! ### Indexing the grid lists -/

theorem length_flatMap_fixed {α : Type} (g : ℕ → List α) (n L : ℕ)
    (hg : ∀ r, (g r).length = L) :
    ((List.range n).flatMap g).length = n * L := by
  induction n with
  | zero => simp
  | succ m ih =>
    rw [List.range_succ, List.flatMap_append]
    simp only [List.length_append, ih, List.flatMap_cons, List.flatMap_nil,
      List.append_nil, hg]
    ring

theorem getD_flatMap_fixed {α : Type} [Inhabited α] (g : ℕ → List α) (L : ℕ)
    (hg : ∀ r, (g r).length = L) (n r c : ℕ) (hr : r < n) (hc : c < L) :
    ((List.range n).flatMap g).getD (r * L + c) default = (g r).getD c default := by
  induction n with
  | zero => exact absurd hr (Nat.not_lt_zero r)
  | succ m ih =>
    rw [List.range_succ, List.flatMap_append]
    by_cases h : r < m
    · have hidx : r * L + c < ((List.range m).flatMap g).length := by
        rw [length_flatMap_fixed g m L hg]
        have h1 : (r + 1) * L ≤ m * L := Nat.mul_le_mul_right L h
        have h2 : (r + 1) * L = r * L + L := by ring
        omega
      rw [List.getD_eq_getElem?_getD, List.getElem?_append_left hidx,
        ← List.getD_eq_getElem?_getD]
      exact ih h
    · have hrm : r = m := by omega
      subst hrm
      have hlen : ((List.range r).flatMap g).length = r * L := length_flatMap_fixed g r L hg
      rw [List.getD_eq_getElem?_getD, List.getElem?_append_right (by rw [hlen]; omega)]
      rw [hlen]
      simp only [List.flatMap_cons, List.flatMap_nil, List.append_nil]
      rw [show r * L + c - r * L = c by omega]
      rw [← List.getD_eq_getElem?_getD]

theorem dimensions_length (w h ht vt : ℕ) : (dimensions w h ht vt).length = vt * ht := by
  unfold dimensions
  exact length_flatMap_fixed _ vt ht (fun r => by simp)

theorem dimensions_getD (w h ht vt r c : ℕ) (hr : r < vt) (hc : c < ht) :
    (dimensions w h ht vt).getD (r * ht + c) default = dim_box w h ht vt r c := by
  unfold dimensions
  rw [getD_flatMap_fixed _ ht (fun i => by simp) vt r c hr hc]
  rw [List.getD_eq_getElem?_getD, List.getElem?_map]
  simp [List.getElem?_range hc]

theorem getD_map_toQuad (l : List GridBox) (j : ℕ) (hj : j < l.length) :
    (l.map GridBox.toQuad).getD j default = (l.getD j default).toQuad := by
  rw [List.getD_eq_getElem?_getD, List.getElem?_map, List.getElem?_eq_getElem hj,
    List.getD_eq_getElem?_getD, List.getElem?_eq_getElem hj]
  rfl

/-! ### Membership in the interior vertex list -/

theorem mem_last_row_iff (ht vt i : ℕ) :
    i ∈ last_row ht vt ↔ ht * vt - ht ≤ i ∧ i < ht * vt - ht + ht := by
  unfold last_row
  exact List.mem_range'_1

theorem mem_last_column_iff (ht vt i : ℕ) :
    i ∈ last_column ht vt ↔ ∃ k, k < vt ∧ (ht - 1) + ht * k = i := by
  unfold last_column
  simp [List.mem_map, List.mem_range]

theorem grid_index_inj (ht r c r2 c2 : ℕ) (hc : c < ht) (hc2 : c2 < ht)
    (h : r * ht + c = r2 * ht + c2) : r = r2 ∧ c = c2 := by
  have hpos : 0 < ht := by omega
  have e1 : (r * ht + c) / ht = r ∧ (r * ht + c) % ht = c :=
    (Nat.div_mod_unique hpos).mpr ⟨by ring, hc⟩
  have e2 : (r2 * ht + c2) / ht = r2 ∧ (r2 * ht + c2) % ht = c2 :=
    (Nat.div_mod_unique hpos).mpr ⟨by ring, hc2⟩
  rw [h] at e1
  exact ⟨e1.1.symm.trans e2.1, e1.2.symm.trans e2.2⟩

theorem mem_polygon_indices (ht vt : ℕ) (t : ℕ × ℕ × ℕ × ℕ) :
    t ∈ polygon_indices ht vt ↔
      ∃ r c, r + 1 < vt ∧ c + 1 < ht ∧
        t = (r * ht + c, r * ht + c + 1, r * ht + c + ht, r * ht + c + 1 + ht) := by
  unfold polygon_indices
  simp only [List.mem_map, List.mem_filter, List.mem_range, Bool.and_eq_true,
    decide_eq_true_eq]
  constructor
  · rintro ⟨i, ⟨hilt, hnr, hnc⟩, rfl⟩
    have hcomm : vt * ht = ht * vt := Nat.mul_comm vt ht
    rcases Nat.eq_zero_or_pos ht with h0 | hpos
    · subst h0
      simp at hilt
    rcases Nat.eq_zero_or_pos vt with h0 | hvpos
    · subst h0
      simp at hilt
    have hiN : i < ht * vt := by omega
    refine ⟨i / ht, i % ht, ?_, ?_, ?_⟩
    · rw [mem_last_row_iff] at hnr
      have hlow : i < ht * vt - ht := by omega
      have hsub : ht * vt - ht = ht * (vt - 1) := by
        cases vt with
        | zero => simp
        | succ v => simp [Nat.mul_succ]
      have hdiv : i / ht < vt - 1 := by
        rw [Nat.div_lt_iff_lt_mul hpos, Nat.mul_comm (vt - 1) ht, ← hsub]
        omega
      omega
    · rcases Nat.lt_or_ge (i % ht + 1) ht with h' | h'
      · exact h'
      · exfalso
        have hmod : i % ht < ht := Nat.mod_lt _ hpos
        have hceq : i % ht = ht - 1 := by omega
        apply hnc
        rw [mem_last_column_iff]
        refine ⟨i / ht, ?_, ?_⟩
        · rw [Nat.div_lt_iff_lt_mul hpos, Nat.mul_comm vt ht]
          exact hiN
        · rw [← hceq, Nat.add_comm, Nat.mul_comm]
          exact Nat.div_add_mod' i ht
    · have hdm : i / ht * ht + i % ht = i := Nat.div_add_mod' i ht
      rw [hdm]
  · rintro ⟨r, c, hr, hc, rfl⟩
    have hpos : 0 < ht := by omega
    refine ⟨r * ht + c, ⟨?_, ?_, ?_⟩, rfl⟩
    · have h1 : (r + 2) * ht ≤ vt * ht := Nat.mul_le_mul_right ht (by omega)
      have h2 : (r + 2) * ht = r * ht + ht + ht := by ring
      omega
    · rw [mem_last_row_iff]
      intro hmem
      have hsub : ht * vt - ht = (vt - 1) * ht := by
        cases vt with
        | zero => simp
        | succ v =>
          simp only [Nat.mul_succ, Nat.succ_sub_one, Nat.add_sub_cancel]
          ring
      have h1 : (r + 1) * ht ≤ (vt - 1) * ht := Nat.mul_le_mul_right ht (by omega)
      have h2 : (r + 1) * ht = r * ht + ht := by ring
      omega
    · rw [mem_last_column_iff]
      rintro ⟨k, hk, hkeq⟩
      have heq : k * ht + (ht - 1) = r * ht + c := by
        rw [← hkeq]
        ring_nf
      obtain ⟨-, hcc⟩ := grid_index_inj ht k (ht - 1) r c (by omega) (by omega) heq
      omega

theorem polygon_indices_bounds (ht vt : ℕ) (t : ℕ × ℕ × ℕ × ℕ)
    (htm : t ∈ polygon_indices ht vt) :
    t.1 < vt * ht ∧ t.2.1 < vt * ht ∧ t.2.2.1 < vt * ht ∧ t.2.2.2 < vt * ht := by
  obtain ⟨r, c, hr, hc, rfl⟩ := (mem_polygon_indices ht vt t).mp htm
  have h1 : (r + 2) * ht ≤ vt * ht := Nat.mul_le_mul_right ht (by omega)
  have h2 : (r + 2) * ht = r * ht + ht + ht := by ring
  refine ⟨?_, ?_, ?_, ?_⟩
  · show r * ht + c < vt * ht
    omega
  · show r * ht + c + 1 < vt * ht
    omega
  · show r * ht + c + ht < vt * ht
    omega
  · show r * ht + c + 1 + ht < vt * ht
    omega

theorem exists_zip_pair {α β : Type} (l1 : List α) (l2 : List β) (a : α)
    (ha : a ∈ l1) (hlen : l1.length ≤ l2.length) : ∃ b, (a, b) ∈ l1.zip l2 := by
  induction l1 generalizing l2 with
  | nil => cases ha
  | cons x tl ih =>
    cases l2 with
    | nil => simp at hlen
    | cons y tl2 =>
      rcases List.mem_cons.mp ha with rfl | hmem
      · exact ⟨y, by simp⟩
      · obtain ⟨b, hb⟩ := ih tl2 hmem (by simpa using hlen)
        exact ⟨b, by simp [hb]⟩

theorem zip_sel_nodup (ht vt : ℕ) (disps : List (ℤ × ℤ))
    (hlen : (polygon_indices ht vt).length ≤ disps.length)
    (sel : ℕ × ℕ × ℕ × ℕ → ℕ) (a : ℕ)
    (hsel : ∀ i, sel (i, i + 1, i + ht, i + 1 + ht) = i + a) :
    (((polygon_indices ht vt).zip disps).map (fun pd => sel pd.1)).Nodup := by
  have hfst : ((polygon_indices ht vt).zip disps).map Prod.fst = polygon_indices ht vt :=
    List.map_fst_zip _ _ hlen
  have hcomp : (((polygon_indices ht vt).zip disps).map (fun pd => sel pd.1)) =
      (polygon_indices ht vt).map sel := by
    rw [show (fun pd : (ℕ × ℕ × ℕ × ℕ) × (ℤ × ℤ) => sel pd.1) = sel ∘ Prod.fst from rfl,
      ← List.map_map, hfst]
  rw [hcomp]
  unfold polygon_indices
  rw [List.map_map]
  have heq : (sel ∘ (fun i => (i, i + 1, i + ht, i + 1 + ht))) = (fun i => i + a) := by
    funext i
    exact hsel i
  rw [heq]
  exact ((List.nodup_range _).filter _).map (fun x y hxy => by omega)

theorem corner_sum_eq_of_unique (pairs : List ((ℕ × ℕ × ℕ × ℕ) × (ℤ × ℤ)))
    (sel : ℕ × ℕ × ℕ × ℕ → ℕ) (j : ℕ) (pd0 : (ℕ × ℕ × ℕ × ℕ) × (ℤ × ℤ))
    (hmem : pd0 ∈ pairs) (hsel : sel pd0.1 = j)
    (hnd : (pairs.map (fun pd => sel pd.1)).Nodup) :
    corner_sum pairs sel j = pd0.2 := by
  induction pairs with
  | nil => cases hmem
  | cons x tl ih =>
    rw [corner_sum_cons]
    rw [List.map_cons] at hnd
    have hnd2 := List.nodup_cons.mp hnd
    rcases List.mem_cons.mp hmem with rfl | hmem2
    · rw [if_pos hsel]
      have hz : corner_sum tl sel j = (0, 0) := by
        apply corner_sum_eq_zero
        intro pd hpd hcontra
        exact hnd2.1 (by rw [hsel, ← hcontra]; exact List.mem_map_of_mem _ hpd)
      rw [hz]
      rw [Prod.mk_zero_zero, add_zero]
    · have hne : sel x.1 ≠ j := by
        intro hx
        exact hnd2.1 (by rw [hx, ← hsel]; exact List.mem_map_of_mem _ hmem2)
      rw [if_neg hne, ih hmem2 hnd2.2, zero_add]

/-! ### The corners of a cell box -/

theorem dim_box_corner_tl (w h ht vt r c : ℕ) :
    (dim_box w h ht vt r c).x1 = c * width_of_square w ht ∧
    (dim_box w h ht vt r c).y1 = r * height_of_square h vt := by
  unfold dim_box
  split_ifs <;> exact ⟨rfl, rfl⟩

theorem dim_box_x2_of_lt (w h ht vt r c : ℕ) (hc : c + 1 < ht) :
    (dim_box w h ht vt r c).x2 = (c + 1) * width_of_square w ht := by
  unfold dim_box
  split_ifs with h1 h2 h3
  · exact absurd h1.2 (by omega)
  · show width_of_square w ht + c * width_of_square w ht = _
    ring
  · exact absurd h3 (by omega)
  · show width_of_square w ht + c * width_of_square w ht = _
    ring

theorem dim_box_y2_of_lt (w h ht vt r c : ℕ) (hr : r + 1 < vt) :
    (dim_box w h ht vt r c).y2 = (r + 1) * height_of_square h vt := by
  unfold dim_box
  split_ifs with h1 h2 h3
  · exact absurd h1.1 (by omega)
  · exact absurd h2 (by omega)
  · show height_of_square h vt + height_of_square h vt * r = _
    ring
  · show height_of_square h vt + height_of_square h vt * r = _
    ring

/-- C3: in the mesh emitted by the distortion generator, the interior
grid vertex between rows r, r+1 and columns c, c+1 receives one single
drawn displacement d (the pair zipped with its quadruple in the loop),
and all four cell quadrilaterals referencing that vertex, cell (r, c) at
corner p3, cell (r, c+1) at corner p2, cell (r+1, c) at corner p4 and
cell (r+1, c+1) at corner p1, carry the identical perturbed coordinate
(the shared vertex ((c+1) ws, (r+1) hs) plus d), for every image size,
grid size and displacement stream. -/
theorem distort_shared_vertex_consistent (w h ht vt : ℕ) (disps : List (ℤ × ℤ)) (r c : ℕ)
    (hr : r + 1 < vt) (hc : c + 1 < ht)
    (hlen : (polygon_indices ht vt).length ≤ disps.length) :
    ∃ d : ℤ × ℤ,
      ((r * ht + c, r * ht + c + 1, r * ht + c + ht, r * ht + c + 1 + ht), d) ∈
        (polygon_indices ht vt).zip disps ∧
      ((distort_polygons w h ht vt disps).getD (r * ht + c) default).p3 =
        ((((c + 1) * width_of_square w ht : ℕ) : ℤ),
         (((r + 1) * height_of_square h vt : ℕ) : ℤ)) + d ∧
      ((distort_polygons w h ht vt disps).getD (r * ht + c + 1) default).p2 =
        ((((c + 1) * width_of_square w ht : ℕ) : ℤ),
         (((r + 1) * height_of_square h vt : ℕ) : ℤ)) + d ∧
      ((distort_polygons w h ht vt disps).getD (r * ht + c + ht) default).p4 =
        ((((c + 1) * width_of_square w ht : ℕ) : ℤ),
         (((r + 1) * height_of_square h vt : ℕ) : ℤ)) + d ∧
      ((distort_polygons w h ht vt disps).getD (r * ht + c + 1 + ht) default).p1 =
        ((((c + 1) * width_of_square w ht : ℕ) : ℤ),
         (((r + 1) * height_of_square h vt : ℕ) : ℤ)) + d := by
  have hti : (r * ht + c, r * ht + c + 1, r * ht + c + ht, r * ht + c + 1 + ht) ∈
      polygon_indices ht vt :=
    (mem_polygon_indices ht vt _).mpr ⟨r, c, hr, hc, rfl⟩
  obtain ⟨d, hd⟩ := exists_zip_pair _ disps _ hti hlen
  have hm3 : (r + 1) * ht = r * ht + ht := by ring
  have hm1 : (r + 2) * ht ≤ vt * ht := Nat.mul_le_mul_right ht (by omega)
  have hm2 : (r + 2) * ht = r * ht + ht + ht := by ring
  have hB1 : r * ht + c < vt * ht := by omega
  have hB2 : r * ht + c + 1 < vt * ht := by omega
  have hB3 : (r + 1) * ht + c < vt * ht := by omega
  have hB4 : (r + 1) * ht + (c + 1) < vt * ht := by omega
  have hlenp : ((dimensions w h ht vt).map GridBox.toQuad).length = vt * ht := by
    rw [List.length_map, dimensions_length]
  have hb : ∀ pd ∈ (polygon_indices ht vt).zip disps,
      pd.1.1 < ((dimensions w h ht vt).map GridBox.toQuad).length ∧
      pd.1.2.1 < ((dimensions w h ht vt).map GridBox.toQuad).length ∧
      pd.1.2.2.1 < ((dimensions w h ht vt).map GridBox.toQuad).length ∧
      pd.1.2.2.2 < ((dimensions w h ht vt).map GridBox.toQuad).length := by
    intro pd hpd
    have hmem : pd.1 ∈ polygon_indices ht vt := (List.of_mem_zip hpd).1
    rw [hlenp]
    exact polygon_indices_bounds ht vt pd.1 hmem
  have key : ∀ j : ℕ, j < vt * ht →
      (displace_polygons ((polygon_indices ht vt).zip disps)
          ((dimensions w h ht vt).map GridBox.toQuad)).getD j default =
        { p1 := (((dimensions w h ht vt).map GridBox.toQuad).getD j default).p1 +
            corner_sum ((polygon_indices ht vt).zip disps) (fun t => t.2.2.2) j
          p2 := (((dimensions w h ht vt).map GridBox.toQuad).getD j default).p2 +
            corner_sum ((polygon_indices ht vt).zip disps) (fun t => t.2.1) j
          p3 := (((dimensions w h ht vt).map GridBox.toQuad).getD j default).p3 +
            corner_sum ((polygon_indices ht vt).zip disps) (fun t => t.1) j
          p4 := (((dimensions w h ht vt).map GridBox.toQuad).getD j default).p4 +
            corner_sum ((polygon_indices ht vt).zip disps) (fun t => t.2.2.1) j } :=
    fun j hj => displace_polygons_getD _ _ j (by rw [hlenp]; exact hj) hb
  have hgetQ : ∀ r2 c2 : ℕ, r2 < vt → c2 < ht →
      (((dimensions w h ht vt).map GridBox.toQuad).getD (r2 * ht + c2) default) =
        (dim_box w h ht vt r2 c2).toQuad := by
    intro r2 c2 hr2 hc2
    have hbound : r2 * ht + c2 < (dimensions w h ht vt).length := by
      rw [dimensions_length]
      have u1 : (r2 + 1) * ht ≤ vt * ht := Nat.mul_le_mul_right ht (by omega)
      have u2 : (r2 + 1) * ht = r2 * ht + ht := by ring
      omega
    rw [getD_map_toQuad _ _ hbound, dimensions_getD w h ht vt r2 c2 hr2 hc2]
  refine ⟨d, hd, ?_, ?_, ?_, ?_⟩
  · unfold distort_polygons
    rw [key (r * ht + c) hB1]
    show (((dimensions w h ht vt).map GridBox.toQuad).getD (r * ht + c) default).p3 +
      corner_sum ((polygon_indices ht vt).zip disps) (fun t => t.1) (r * ht + c) = _
    rw [hgetQ r c (by omega) (by omega)]
    rw [corner_sum_eq_of_unique _ _ _ _ hd rfl
      (zip_sel_nodup ht vt disps hlen _ 0 (fun i => rfl))]
    show ((((dim_box w h ht vt r c).x2 : ℕ) : ℤ),
      (((dim_box w h ht vt r c).y2 : ℕ) : ℤ)) + d = _
    rw [dim_box_x2_of_lt w h ht vt r c hc, dim_box_y2_of_lt w h ht vt r c hr]
  · unfold distort_polygons
    rw [key (r * ht + c + 1) hB2]
    show (((dimensions w h ht vt).map GridBox.toQuad).getD (r * ht + c + 1) default).p2 +
      corner_sum ((polygon_indices ht vt).zip disps) (fun t => t.2.1) (r * ht + c + 1) = _
    rw [show ((dimensions w h ht vt).map GridBox.toQuad).getD (r * ht + c + 1) default =
        (dim_box w h ht vt r (c + 1)).toQuad from hgetQ r (c + 1) (by omega) (by omega)]
    rw [corner_sum_eq_of_unique _ _ _ _ hd rfl
      (zip_sel_nodup ht vt disps hlen _ 1 (fun i => rfl))]
    show ((((dim_box w h ht vt r (c + 1)).x1 : ℕ) : ℤ),
      (((dim_box w h ht vt r (c + 1)).y2 : ℕ) : ℤ)) + d = _
    rw [(dim_box_corner_tl w h ht vt r (c + 1)).1,
      dim_box_y2_of_lt w h ht vt r (c + 1) hr]
  · unfold distort_polygons
    rw [show r * ht + c + ht = (r + 1) * ht + c from by ring]
    rw [key ((r + 1) * ht + c) hB3]
    show (((dimensions w h ht vt).map GridBox.toQuad).getD ((r + 1) * ht + c) default).p4 +
      corner_sum ((polygon_indices ht vt).zip disps) (fun t => t.2.2.1) ((r + 1) * ht + c) = _
    rw [hgetQ (r + 1) c (by omega) (by omega)]
    rw [corner_sum_eq_of_unique _ _ _ _ hd (by show r * ht + c + ht = _; ring)
      (zip_sel_nodup ht vt disps hlen _ ht (fun i => rfl))]
    show ((((dim_box w h ht vt (r + 1) c).x2 : ℕ) : ℤ),
      (((dim_box w h ht vt (r + 1) c).y1 : ℕ) : ℤ)) + d = _
    rw [dim_box_x2_of_lt w h ht vt (r + 1) c hc,
      (dim_box_corner_tl w h ht vt (r + 1) c).2]
  · unfold distort_polygons
    rw [show r * ht + c + 1 + ht = (r + 1) * ht + (c + 1) from by ring]
    rw [key ((r + 1) * ht + (c + 1)) hB4]
    show (((dimensions w h ht vt).map GridBox.toQuad).getD ((r + 1) * ht + (c + 1)) default).p1 +
      corner_sum ((polygon_indices ht vt).zip disps) (fun t => t.2.2.2)
        ((r + 1) * ht + (c + 1)) = _
    rw [hgetQ (r + 1) (c + 1) (by omega) (by omega)]
    rw [corner_sum_eq_of_unique _ _ _ _ hd (by show r * ht + c + 1 + ht = _; ring)
      (zip_sel_nodup ht vt disps hlen _ (1 + ht) (fun i => by show i + 1 + ht = _; ring))]
    show ((((dim_box w h ht vt (r + 1) (c + 1)).x1 : ℕ) : ℤ),
      (((dim_box w h ht vt (r + 1) (c + 1)).y1 : ℕ) : ℤ)) + d = _
    rw [(dim_box_corner_tl w h ht vt (r + 1) (c + 1)).1,
      (dim_box_corner_tl w h ht vt (r + 1) (c + 1)).2]

/-- Witness for C3 on a 4 x 4 image with a 2 x 2 grid and the single
drawn displacement (5, -7): the one interior vertex sits at (2, 2) and
all four cells carry (2, 2) + (5, -7). -/
theorem distort_shared_vertex_consistent_witness :
    ∃ d : ℤ × ℤ,
      ((0, 1, 2, 3), d) ∈ (polygon_indices 2 2).zip [((5:ℤ), (-7:ℤ))] ∧
      ((distort_polygons 4 4 2 2 [(5, -7)]).getD 0 default).p3 = ((2:ℤ), (2:ℤ)) + d ∧
      ((distort_polygons 4 4 2 2 [(5, -7)]).getD 1 default).p2 = ((2:ℤ), (2:ℤ)) + d ∧
      ((distort_polygons 4 4 2 2 [(5, -7)]).getD 2 default).p4 = ((2:ℤ), (2:ℤ)) + d ∧
      ((distort_polygons 4 4 2 2 [(5, -7)]).getD 3 default).p1 = ((2:ℤ), (2:ℤ)) + d :=
  distort_shared_vertex_consistent 4 4 2 2 [(5, -7)] 0 0 (by norm_num) (by norm_num)
    (by decide)

theorem getQuad_at (w h ht vt r c : ℕ) (hr : r < vt) (hc : c < ht) :
    ((dimensions w h ht vt).map GridBox.toQuad).getD (r * ht + c) default =
      (dim_box w h ht vt r c).toQuad := by
  have hbound : r * ht + c < (dimensions w h ht vt).length := by
    rw [dimensions_length]
    have u1 : (r + 1) * ht ≤ vt * ht := Nat.mul_le_mul_right ht (by omega)
    have u2 : (r + 1) * ht = r * ht + ht := by ring
    omega
  rw [getD_map_toQuad _ _ hbound, dimensions_getD w h ht vt r c hr hc]

/-- C4: every cell corner that is a vertex on the outer boundary of the
full grid keeps its original, undisplaced coordinate in the emitted
polygons, for every image size, grid size, magnitude and displacement
stream: corner p1 of cell (r, c) is on the boundary when r = 0 or c = 0,
p2 when c = 0 or r + 1 = vt, p3 when r + 1 = vt or c + 1 = ht, and p4
when r = 0 or c + 1 = ht, and in each of those cases the corner equals
the corner of the undisplaced cell box. -/
theorem distort_border_vertices_fixed (w h ht vt : ℕ) (disps : List (ℤ × ℤ)) (r c : ℕ)
    (hr : r < vt) (hc : c < ht) :
    ((r = 0 ∨ c = 0) →
      ((distort_polygons w h ht vt disps).getD (r * ht + c) default).p1 =
        (dim_box w h ht vt r c).toQuad.p1) ∧
    ((c = 0 ∨ r + 1 = vt) →
      ((distort_polygons w h ht vt disps).getD (r * ht + c) default).p2 =
        (dim_box w h ht vt r c).toQuad.p2) ∧
    ((r + 1 = vt ∨ c + 1 = ht) →
      ((distort_polygons w h ht vt disps).getD (r * ht + c) default).p3 =
        (dim_box w h ht vt r c).toQuad.p3) ∧
    ((r = 0 ∨ c + 1 = ht) →
      ((distort_polygons w h ht vt disps).getD (r * ht + c) default).p4 =
        (dim_box w h ht vt r c).toQuad.p4) := by
  have hm3 : (r + 1) * ht = r * ht + ht := by ring
  have hm1 : (r + 1) * ht ≤ vt * ht := Nat.mul_le_mul_right ht (by omega)
  have hB : r * ht + c < vt * ht := by omega
  have hlenp : ((dimensions w h ht vt).map GridBox.toQuad).length = vt * ht := by
    rw [List.length_map, dimensions_length]
  have hb : ∀ pd ∈ (polygon_indices ht vt).zip disps,
      pd.1.1 < ((dimensions w h ht vt).map GridBox.toQuad).length ∧
      pd.1.2.1 < ((dimensions w h ht vt).map GridBox.toQuad).length ∧
      pd.1.2.2.1 < ((dimensions w h ht vt).map GridBox.toQuad).length ∧
      pd.1.2.2.2 < ((dimensions w h ht vt).map GridBox.toQuad).length := by
    intro pd hpd
    have hmem : pd.1 ∈ polygon_indices ht vt := (List.of_mem_zip hpd).1
    rw [hlenp]
    exact polygon_indices_bounds ht vt pd.1 hmem
  have key := displace_polygons_getD ((polygon_indices ht vt).zip disps)
    ((dimensions w h ht vt).map GridBox.toQuad) (r * ht + c) (by rw [hlenp]; exact hB) hb
  refine ⟨?_, ?_, ?_, ?_⟩ <;> intro hcase <;> unfold distort_polygons <;> rw [key]
  · show (((dimensions w h ht vt).map GridBox.toQuad).getD (r * ht + c) default).p1 +
      corner_sum ((polygon_indices ht vt).zip disps) (fun t => t.2.2.2) (r * ht + c) = _
    rw [getQuad_at w h ht vt r c hr hc]
    rw [corner_sum_eq_zero _ _ _ ?_, Prod.mk_zero_zero, add_zero]
    intro pd hpd hcontra
    obtain ⟨r2, c2, hr2, hc2, hpd1⟩ :=
      (mem_polygon_indices ht vt pd.1).mp (List.of_mem_zip hpd).1
    rw [hpd1] at hcontra
    have h0 : r2 * ht + c2 + 1 + ht = r * ht + c := hcontra
    have hram : (r2 + 1) * ht = r2 * ht + ht := by ring
    have heq : (r2 + 1) * ht + (c2 + 1) = r * ht + c := by omega
    obtain ⟨e1, e2⟩ := grid_index_inj ht (r2 + 1) (c2 + 1) r c (by omega) hc heq
    rcases hcase with h | h <;> omega
  · show (((dimensions w h ht vt).map GridBox.toQuad).getD (r * ht + c) default).p2 +
      corner_sum ((polygon_indices ht vt).zip disps) (fun t => t.2.1) (r * ht + c) = _
    rw [getQuad_at w h ht vt r c hr hc]
    rw [corner_sum_eq_zero _ _ _ ?_, Prod.mk_zero_zero, add_zero]
    intro pd hpd hcontra
    obtain ⟨r2, c2, hr2, hc2, hpd1⟩ :=
      (mem_polygon_indices ht vt pd.1).mp (List.of_mem_zip hpd).1
    rw [hpd1] at hcontra
    have h0 : r2 * ht + c2 + 1 = r * ht + c := hcontra
    have heq : r2 * ht + (c2 + 1) = r * ht + c := by omega
    obtain ⟨e1, e2⟩ := grid_index_inj ht r2 (c2 + 1) r c (by omega) hc heq
    rcases hcase with h | h <;> omega
  · show (((dimensions w h ht vt).map GridBox.toQuad).getD (r * ht + c) default).p3 +
      corner_sum ((polygon_indices ht vt).zip disps) (fun t => t.1) (r * ht + c) = _
    rw [getQuad_at w h ht vt r c hr hc]
    rw [corner_sum_eq_zero _ _ _ ?_, Prod.mk_zero_zero, add_zero]
    intro pd hpd hcontra
    obtain ⟨r2, c2, hr2, hc2, hpd1⟩ :=
      (mem_polygon_indices ht vt pd.1).mp (List.of_mem_zip hpd).1
    rw [hpd1] at hcontra
    have h0 : r2 * ht + c2 = r * ht + c := hcontra
    obtain ⟨e1, e2⟩ := grid_index_inj ht r2 c2 r c (by omega) hc h0
    rcases hcase with h | h <;> omega
  · show (((dimensions w h ht vt).map GridBox.toQuad).getD (r * ht + c) default).p4 +
      corner_sum ((polygon_indices ht vt).zip disps) (fun t => t.2.2.1) (r * ht + c) = _
    rw [getQuad_at w h ht vt r c hr hc]
    rw [corner_sum_eq_zero _ _ _ ?_, Prod.mk_zero_zero, add_zero]
    intro pd hpd hcontra
    obtain ⟨r2, c2, hr2, hc2, hpd1⟩ :=
      (mem_polygon_indices ht vt pd.1).mp (List.of_mem_zip hpd).1
    rw [hpd1] at hcontra
    have h0 : r2 * ht + c2 + ht = r * ht + c := hcontra
    have hram : (r2 + 1) * ht = r2 * ht + ht := by ring
    have heq : (r2 + 1) * ht + c2 = r * ht + c := by omega
    obtain ⟨e1, e2⟩ := grid_index_inj ht (r2 + 1) c2 r c (by omega) hc heq
    rcases hcase with h | h <;> omega

/-- Witness for C4 on a 4 x 4 image with a 2 x 2 grid: the top left
corner of cell (0, 0) stays at its undisplaced position whatever was
drawn. -/
theorem distort_border_vertices_fixed_witness :
    ((distort_polygons 4 4 2 2 [(5, -7)]).getD 0 default).p1 =
      (dim_box 4 4 2 2 0 0).toQuad.p1 :=
  (distort_border_vertices_fixed 4 4 2 2 [(5, -7)] 0 0 (by norm_num) (by norm_num)).1
    (Or.inl rfl)

/-! ### The grid tiles the image exactly -/

/-- Pixel membership in a cell box, with the half open ranges
[x1, x2) x [y1, y2). -/
def GridBox.containsPixel (b : GridBox) (px py : ℕ) : Prop :=
  b.x1 ≤ px ∧ px < b.x2 ∧ b.y1 ≤ py ∧ py < b.y2

theorem dim_box_x2_val (w h ht vt r c : ℕ) (hc : c < ht) :
    (dim_box w h ht vt r c).x2 =
      if c = ht - 1 then w else (c + 1) * width_of_square w ht := by
  have hle : width_of_square w ht * ht ≤ w := Nat.div_mul_le_self w ht
  have hle2 : width_of_square w ht * (ht - 1) ≤ width_of_square w ht * ht :=
    Nat.mul_le_mul_left _ (by omega)
  have hcomm : width_of_square w ht * (ht - 1) = (ht - 1) * width_of_square w ht :=
    Nat.mul_comm _ _
  by_cases hcc : c = ht - 1
  · rw [if_pos hcc]
    unfold dim_box width_of_last_square
    split_ifs with h1 h2
    · show w - width_of_square w ht * (ht - 1) + c * width_of_square w ht = w
      rw [hcc]
      omega
    · exact absurd ⟨h2, hcc⟩ h1
    · show w - width_of_square w ht * (ht - 1) + c * width_of_square w ht = w
      rw [hcc]
      omega
  · rw [if_neg hcc]
    unfold dim_box
    split_ifs with h1 h2
    · exact absurd h1.2 hcc
    · show width_of_square w ht + c * width_of_square w ht = (c + 1) * width_of_square w ht
      ring
    · show width_of_square w ht + c * width_of_square w ht = (c + 1) * width_of_square w ht
      ring

theorem dim_box_y2_val (w h ht vt r c : ℕ) (hr : r < vt) :
    (dim_box w h ht vt r c).y2 =
      if r = vt - 1 then h else (r + 1) * height_of_square h vt := by
  have hle : height_of_square h vt * vt ≤ h := Nat.div_mul_le_self h vt
  have hle2 : height_of_square h vt * (vt - 1) ≤ height_of_square h vt * vt :=
    Nat.mul_le_mul_left _ (by omega)
  by_cases hrr : r = vt - 1
  · rw [if_pos hrr]
    unfold dim_box height_of_last_square
    split_ifs with h1
    · show h - height_of_square h vt * (vt - 1) + height_of_square h vt * r = h
      rw [hrr]
      omega
    · show h - height_of_square h vt * (vt - 1) + height_of_square h vt * r = h
      rw [hrr]
      omega
  · rw [if_neg hrr]
    unfold dim_box
    split_ifs with h1 h2
    · exact absurd h1.1 hrr
    · show height_of_square h vt + height_of_square h vt * r = (r + 1) * height_of_square h vt
      ring
    · show height_of_square h vt + height_of_square h vt * r = (r + 1) * height_of_square h vt
      ring

theorem exists_unique_band (L n px : ℕ) (hn : 1 ≤ n) (hpx : px < L) :
    ∃! c, c < n ∧ c * (L / n) ≤ px ∧
      px < (if c = n - 1 then L else (c + 1) * (L / n)) := by
  have huniq : ∀ c1 c2 : ℕ,
      (c1 < n ∧ c1 * (L / n) ≤ px ∧ px < (if c1 = n - 1 then L else (c1 + 1) * (L / n))) →
      (c2 < n ∧ c2 * (L / n) ≤ px ∧ px < (if c2 = n - 1 then L else (c2 + 1) * (L / n))) →
      c1 < c2 → False := by
    rintro c1 c2 ⟨h1n, h1a, h1b⟩ ⟨h2n, h2a, h2b⟩ h12
    have hne : c1 ≠ n - 1 := by omega
    rw [if_neg hne] at h1b
    have hmul : (c1 + 1) * (L / n) ≤ c2 * (L / n) := Nat.mul_le_mul_right _ (by omega)
    omega
  have hex : ∃ c, c < n ∧ c * (L / n) ≤ px ∧
      px < (if c = n - 1 then L else (c + 1) * (L / n)) := by
    rcases Nat.eq_zero_or_pos (L / n) with hws | hws
    · exact ⟨n - 1, by omega, by simp [hws], by rw [if_pos rfl]; exact hpx⟩
    · by_cases hbig : n - 1 ≤ px / (L / n)
      · refine ⟨n - 1, by omega, ?_, by rw [if_pos rfl]; exact hpx⟩
        calc (n - 1) * (L / n) ≤ px / (L / n) * (L / n) := Nat.mul_le_mul_right _ hbig
          _ ≤ px := Nat.div_mul_le_self _ _
      · push_neg at hbig
        refine ⟨px / (L / n), by omega, Nat.div_mul_le_self _ _, ?_⟩
        rw [if_neg (by omega)]
        have hmod := Nat.div_add_mod px (L / n)
        have hmodlt : px % (L / n) < L / n := Nat.mod_lt _ hws
        have hexp : (px / (L / n) + 1) * (L / n) = (L / n) * (px / (L / n)) + (L / n) := by
          ring
        omega
  obtain ⟨c0, hc0⟩ := hex
  refine ⟨c0, hc0, fun c hc => ?_⟩
  rcases Nat.lt_trichotomy c c0 with hlt | heq | hgt
  · exact (huniq c c0 hc hc0 hlt).elim
  · exact heq
  · exact (huniq c0 c hc0 hc hgt).elim

/-- C9: for every image size w x h (both positive) and grid dimensions
ht x vt (both at least one), the cell boxes tile the image exactly: the
last column and last row reach the image edges w and h (absorbing the
integer division remainder), every box stays inside the image, and every
pixel of the image lies in exactly one cell box, so the cells cover the
image and are pairwise non overlapping. -/
theorem distort_grid_tiles_exactly (w h ht vt : ℕ) (hht : 1 ≤ ht) (hvt : 1 ≤ vt)
    (hw : 1 ≤ w) (hh : 1 ≤ h) :
    (∀ r, r < vt → (dim_box w h ht vt r (ht - 1)).x2 = w) ∧
    (∀ c, c < ht → (dim_box w h ht vt (vt - 1) c).y2 = h) ∧
    (∀ r c, r < vt → c < ht →
      (dim_box w h ht vt r c).x2 ≤ w ∧ (dim_box w h ht vt r c).y2 ≤ h) ∧
    (∀ px py, px < w → py < h →
      ∃! i, i < (dimensions w h ht vt).length ∧
        ((dimensions w h ht vt).getD i default).containsPixel px py) := by
  have hxw : ∀ r c, r < vt → c < ht → (dim_box w h ht vt r c).x2 ≤ w := by
    intro r c hr hc
    rw [dim_box_x2_val w h ht vt r c hc]
    split_ifs
    · exact le_refl w
    · calc (c + 1) * width_of_square w ht ≤ ht * width_of_square w ht :=
        Nat.mul_le_mul_right _ (by omega)
        _ = width_of_square w ht * ht := Nat.mul_comm _ _
        _ ≤ w := Nat.div_mul_le_self w ht
  have hyh : ∀ r c, r < vt → c < ht → (dim_box w h ht vt r c).y2 ≤ h := by
    intro r c hr hc
    rw [dim_box_y2_val w h ht vt r c hr]
    split_ifs
    · exact le_refl h
    · calc (r + 1) * height_of_square h vt ≤ vt * height_of_square h vt :=
        Nat.mul_le_mul_right _ (by omega)
        _ = height_of_square h vt * vt := Nat.mul_comm _ _
        _ ≤ h := Nat.div_mul_le_self h vt
  refine ⟨?_, ?_, fun r c hr hc => ⟨hxw r c hr hc, hyh r c hr hc⟩, ?_⟩
  · intro r hr
    rw [dim_box_x2_val w h ht vt r (ht - 1) (by omega), if_pos rfl]
  · intro c hc
    rw [dim_box_y2_val w h ht vt (vt - 1) c (by omega), if_pos rfl]
  · intro px py hpx hpy
    obtain ⟨c0, ⟨hc0n, hc0a, hc0b⟩, hc0u⟩ := exists_unique_band w ht px hht hpx
    obtain ⟨r0, ⟨hr0n, hr0a, hr0b⟩, hr0u⟩ := exists_unique_band h vt py hvt hpy
    have hbound : r0 * ht + c0 < vt * ht := by
      have u1 : (r0 + 1) * ht ≤ vt * ht := Nat.mul_le_mul_right ht (by omega)
      have u2 : (r0 + 1) * ht = r0 * ht + ht := by ring
      omega
    refine ⟨r0 * ht + c0, ⟨by rw [dimensions_length]; exact hbound, ?_⟩, ?_⟩
    · rw [dimensions_getD w h ht vt r0 c0 hr0n hc0n]
      refine ⟨?_, ?_, ?_, ?_⟩
      · rw [(dim_box_corner_tl w h ht vt r0 c0).1]
        exact hc0a
      · rw [dim_box_x2_val w h ht vt r0 c0 hc0n]
        exact hc0b
      · rw [(dim_box_corner_tl w h ht vt r0 c0).2]
        exact hr0a
      · rw [dim_box_y2_val w h ht vt r0 c0 hr0n]
        exact hr0b
    · rintro i ⟨hilt, hcont⟩
      rw [dimensions_length] at hilt
      have hpos : 0 < ht := hht
      have hc1 : i % ht < ht := Nat.mod_lt _ hpos
      have hr1 : i / ht < vt := by
        rw [Nat.div_lt_iff_lt_mul hpos]
        exact hilt
      have hdm : i / ht * ht + i % ht = i := Nat.div_add_mod' i ht
      rw [← hdm, dimensions_getD w h ht vt (i / ht) (i % ht) hr1 hc1] at hcont
      obtain ⟨ha1, ha2, ha3, ha4⟩ := hcont
      rw [(dim_box_corner_tl w h ht vt (i / ht) (i % ht)).1] at ha1
      rw [dim_box_x2_val w h ht vt (i / ht) (i % ht) hc1] at ha2
      rw [(dim_box_corner_tl w h ht vt (i / ht) (i % ht)).2] at ha3
      rw [dim_box_y2_val w h ht vt (i / ht) (i % ht) hr1] at ha4
      have hceq : i % ht = c0 := hc0u (i % ht) ⟨hc1, ha1, ha2⟩
      have hreq : i / ht = r0 := hr0u (i / ht) ⟨hr1, ha3, ha4⟩
      rw [← hdm, hceq, hreq]

/-- Witness for C9: on a 5 x 5 image with a 2 x 2 grid, the pixel (3, 2)
lies in exactly one cell box. -/
theorem distort_grid_tiles_exactly_witness :
    ∃! i, i < (dimensions 5 5 2 2).length ∧
      ((dimensions 5 5 2 2).getD i default).containsPixel 3 2 :=
  (distort_grid_tiles_exactly 5 5 2 2 (by norm_num) (by norm_num) (by norm_num)
    (by norm_num)).2.2.2 3 2 (by norm_num) (by norm_num)

end Augmentor
